import Mathlib

namespace AcdApi

/-!
Verification development for the acd-api score ingestion and metrics
aggregation core.

The definitions below are a shallow embedding of the Python source:

* `app/routes/metrics.py` — band distribution aggregator
  (`get_band_distribution`);
* `scripts/import_anomaly_scores.py` — percentile ranker and batch importer
  (`import_scores`);
* `app/routes/anomalies.py` — statistics aggregator (`get_anomaly_stats`),
  histogram bucketer (`get_anomaly_distribution`) and model version registry
  (`get_model_versions`).

Python floats are idealised as exact rationals (`ℚ`), Python sets over ids
as duplicate-free lists (`List.dedup`; only membership and size are ever
used, so a duplicate-free list is a faithful model and keeps every
definition kernel-computable), and the relational / Hasura store as an
explicit list of records.
-/

/-! ## Band distribution aggregator (`app/routes/metrics.py`)

The route iterates over `tower_providers` rows; each row carries a tower id,
a provider id, an EN-DC flag, and the band count of the tower (the
`tower_bands_aggregate.count` field fetched alongside the row). -/

structure TowerProviderRow where
  tower_id : ℕ
  provider_id : ℕ
  endc_available : Bool
  band_count : ℕ

/-- Rows belonging to one provider (the per-provider slice of the loop). -/
def rowsFor (rows : List TowerProviderRow) (p : ℕ) : List TowerProviderRow :=
  rows.filter (fun r => r.provider_id = p)

/-- `stats["band_counts"]` keys: the band counts seen for provider `p`. -/
def bandCountsOf (rows : List TowerProviderRow) (p : ℕ) : List ℕ :=
  ((rowsFor rows p).map (fun r => r.band_count)).dedup

/-- `stats["band_counts"][bc]`: the set of tower ids provider `p` saw with
band count `bc`. -/
def towersWith (rows : List TowerProviderRow) (p : ℕ) (bc : ℕ) : List ℕ :=
  (((rowsFor rows p).filter (fun r => r.band_count = bc)).map
    (fun r => r.tower_id)).dedup

/-- `stats["endc_towers"]`: towers added whenever a row for `p` has
`endc_available` true. -/
def endcTowersOf (rows : List TowerProviderRow) (p : ℕ) : List ℕ :=
  (((rowsFor rows p).filter (fun r => r.endc_available)).map
    (fun r => r.tower_id)).dedup

/-- `stats["non_endc_towers"]`: towers added whenever a row for `p` has
`endc_available` false. -/
def nonEndcTowersOf (rows : List TowerProviderRow) (p : ℕ) : List ℕ :=
  (((rowsFor rows p).filter (fun r => !r.endc_available)).map
    (fun r => r.tower_id)).dedup

/-- `all_provider_towers`: the union of the `band_counts` value sets, exactly
as the route computes `total_towers`. -/
def allProviderTowers (rows : List TowerProviderRow) (p : ℕ) : List ℕ :=
  (((bandCountsOf rows p).map (towersWith rows p)).flatten).dedup

structure BandDistributionEntry where
  band_count : ℕ
  tower_count : ℕ
deriving DecidableEq

/-- `ProviderBandDistribution` response model (provider_name, a display-only
lookup into the `providers` table, is omitted). -/
structure ProviderBandDistribution where
  provider_id : ℕ
  distribution : List BandDistributionEntry
  total_towers : ℕ
  endc_towers : ℕ
  non_endc_towers : ℕ
deriving DecidableEq

/-- One element of `by_provider`, as the route builds it for provider `p`. -/
def providerEntry (rows : List TowerProviderRow) (p : ℕ) :
    ProviderBandDistribution where
  provider_id := p
  distribution :=
    ((bandCountsOf rows p).insertionSort (· ≤ ·)).map
      (fun bc => ⟨bc, (towersWith rows p bc).length⟩)
  total_towers := (allProviderTowers rows p).length
  endc_towers := (endcTowersOf rows p).length
  non_endc_towers := (nonEndcTowersOf rows p).length

/-- The providers observed in the input rows (`provider_stats` keys). -/
def providerIds (rows : List TowerProviderRow) : List ℕ :=
  (rows.map (fun r => r.provider_id)).dedup

/-- `by_provider`: per-provider entries, provider ids ascending
(`sorted(provider_stats.items())`). -/
def by_provider (rows : List TowerProviderRow) :
    List ProviderBandDistribution :=
  ((providerIds rows).insertionSort (· ≤ ·)).map (providerEntry rows)

/-- Overall distribution (`overall_band_counts`), band counts ascending. -/
def overallDistribution (rows : List TowerProviderRow) :
    List BandDistributionEntry :=
  (((rows.map (fun r => r.band_count)).dedup).insertionSort (· ≤ ·)).map
    (fun bc =>
      ⟨bc, ((rows.filter (fun r => r.band_count = bc)).map
        (fun r => r.tower_id)).dedup.length⟩)

/-- `endc_summary["endc_enabled"]`. -/
def endcEnabledCount (rows : List TowerProviderRow) : ℕ :=
  ((rows.filter (fun r => r.endc_available)).map
    (fun r => r.tower_id)).dedup.length

/-- `endc_summary["endc_disabled"]`. -/
def endcDisabledCount (rows : List TowerProviderRow) : ℕ :=
  ((rows.filter (fun r => !r.endc_available)).map
    (fun r => r.tower_id)).dedup.length

/-- Input for C1: tower 1 is associated with provider 2 by two rows, one
EN-DC-true and one EN-DC-false, both with band count 3. -/
def c1Rows : List TowerProviderRow :=
  [⟨1, 2, true, 3⟩, ⟨1, 2, false, 3⟩]

/-- Input for C2 (the spec scenario): tower 5 has two association rows under
provider 7, one EN-DC false and one EN-DC true. -/
def c2Rows : List TowerProviderRow :=
  [⟨5, 7, false, 2⟩, ⟨5, 7, true, 2⟩]

/-! ## Percentile ranker and batch importer
(`scripts/import_anomaly_scores.py`, `import_scores`)

The CSV is modelled as an already-parsed list of rows.  `import_scores`
computes `df["percentile"] = rankdata(df["anomaly_score"], "average")
/ len(df) * 100`, deletes every stored row of the target model version, and
inserts the batch with `ON CONFLICT (tower_id, model_version) DO UPDATE`. -/

/-- One parsed CSV row of a score batch. -/
structure ScoreRow where
  tower_id : ℤ
  anomaly_score : ℚ
  link_pred_error : Option ℚ
  neighbor_inconsistency : Option ℚ
deriving DecidableEq

/-- Number of values in `l` strictly below `x`. -/
def countLt (l : List ℚ) (x : ℚ) : ℕ := l.countP (fun y => decide (y < x))

/-- Number of values in `l` equal to `x`. -/
def countEq (l : List ℚ) (x : ℚ) : ℕ := l.countP (fun y => decide (y = x))

/-- Models `scipy.stats.rankdata(xs, method="average")` (scipy is an external
library; this is its documented semantics): the rank of `x` is the mean of
the 1-based positions `x` occupies in a sorted arrangement, which equals
`countLt + (countEq + 1) / 2`. -/
def avgRank (l : List ℚ) (x : ℚ) : ℚ :=
  (countLt l x : ℚ) + ((countEq l x : ℚ) + 1) / 2

/-- `stats.rankdata(df["anomaly_score"], method="average")`. -/
def rankdata_average (l : List ℚ) : List ℚ := l.map (avgRank l)

/-- `df["percentile"] = rankdata(...) / len(df) * 100`. -/
def percentiles (l : List ℚ) : List ℚ :=
  (rankdata_average l).map (fun r => r / (l.length : ℚ) * 100)

/-- Modelled from the spec: the table schema file
(`scripts/create_anomaly_table.sql`) is not part of the provided source, so
a stored `tower_anomaly_scores` row carries exactly the ScoreRecord fields
of the spec's data model — the columns of the importer's INSERT list plus
`created_at` (timestamps are idealised as naturals). -/
structure ScoreRecord where
  tower_id : ℤ
  model_version : String
  run_id : Option String
  anomaly_score : ℚ
  link_pred_error : Option ℚ
  neighbor_inconsistency : Option ℚ
  percentile : ℚ
  created_at : ℕ
deriving DecidableEq

/-- The `ON CONFLICT (tower_id, model_version)` key. -/
def sameKey (x r : ScoreRecord) : Prop :=
  x.tower_id = r.tower_id ∧ x.model_version = r.model_version

instance (x r : ScoreRecord) : Decidable (sameKey x r) := by
  unfold sameKey; infer_instance

/-- Insert one row: `ON CONFLICT (tower_id, model_version) DO UPDATE` sets
every non-key column (including `created_at := CURRENT_TIMESTAMP`, i.e. the
whole row becomes the incoming one); otherwise the row is appended. -/
def upsertOne (store : List ScoreRecord) (r : ScoreRecord) :
    List ScoreRecord :=
  if ∃ x ∈ store, sameKey x r then
    store.map (fun x => if sameKey x r then r else x)
  else store ++ [r]

/-- `execute_values` inserts the batch rows in order. -/
def upsertAll (store : List ScoreRecord) (data : List ScoreRecord) :
    List ScoreRecord :=
  data.foldl upsertOne store

/-- The rows the importer builds from the batch: each CSV row with the
target model version, run id, its percentile, and the insertion time. -/
def importRows (batch : List ScoreRow) (mv : String) (rid : Option String)
    (now : ℕ) : List ScoreRecord :=
  (batch.zip (percentiles (batch.map (fun r => r.anomaly_score)))).map
    (fun rp =>
      ⟨rp.1.tower_id, mv, rid, rp.1.anomaly_score, rp.1.link_pred_error,
        rp.1.neighbor_inconsistency, rp.2, now⟩)

/-- `import_scores`: DELETE every stored row whose `model_version` equals the
target, then insert the batch.  The source performs no emptiness validation
and raises nothing on an empty batch: the DELETE still runs and no row is
inserted. -/
def import_scores (store : List ScoreRecord) (batch : List ScoreRow)
    (mv : String) (rid : Option String) (now : ℕ) : List ScoreRecord :=
  upsertAll (store.filter (fun r => r.model_version ≠ mv))
    (importRows batch mv rid now)

/-- A pre-existing stored row for model version "v1". -/
def c3Prior : ScoreRecord := ⟨1, "v1", some "r0", 1/2, none, none, 100, 0⟩

/-! ### The average-rank method against the spec's wording (C4)

The spec describes each percentile as "(average rank among all values, ties
receiving the mean of their tied rank positions) / N * 100".  We build that
quantity literally — the 1-based positions a value occupies in a sorted
arrangement of the batch, averaged — and prove it equal to the embedded
`rankdata` semantics. -/

/-- The 1-based positions at which value `x` occurs in the list `s`. -/
def positionsOf (s : List ℚ) (x : ℚ) : List ℕ :=
  match s with
  | [] => []
  | a :: t => (if a = x then [1] else []) ++ (positionsOf t x).map (· + 1)

/-- Sum of the 1-based positions of `x` in `s`. -/
def sumPos (s : List ℚ) (x : ℚ) : ℕ := (positionsOf s x).sum

/-- Modelled from the spec's words: the percentile of value `x` in batch `l`
is the mean of the 1-based rank positions `x` occupies in a sorted
arrangement of `l`, divided by `N`, times 100. -/
def specPercentile (l : List ℚ) (x : ℚ) : ℚ :=
  (((positionsOf (l.insertionSort (· ≤ ·)) x).map (Nat.cast : ℕ → ℚ)).sum /
      ((positionsOf (l.insertionSort (· ≤ ·)) x).length : ℚ)) /
    (l.length : ℚ) * 100

/-! ## Histogram bucketer (`app/routes/anomalies.py`,
`get_anomaly_distribution`)

The route fetches every `anomaly_score` of the model version, returns `[]`
when there are none, and otherwise builds `buckets` buckets of width
`1/buckets`: bucket `i` counts `bucket_start ≤ s < bucket_end`, and the last
bucket additionally counts the scores equal to `1.0`.  Boundaries are
rounded to 4 decimals for display only, after counting. -/

/-- `round(x, 4)`.  Python rounds the binary float half-to-even; no claim
involves a value half-way at the fourth decimal (where half-up and half-even
could differ), so rounding half-up on exact rationals is faithful here. -/
def round4 (x : ℚ) : ℚ := (round (x * 10000) : ℤ) / 10000

structure AnomalyScoreDistribution where
  bucket_start : ℚ
  bucket_end : ℚ
  count : ℕ
deriving DecidableEq

/-- The count the route computes for bucket `i`:
`sum(1 for s in scores if bucket_start <= s < bucket_end)`, plus
`sum(1 for s in scores if s == 1.0)` when `i` is the last bucket. -/
def bucketCount (scores : List ℚ) (buckets : ℕ) (i : ℕ) : ℕ :=
  scores.countP (fun s =>
      decide ((i : ℚ) * (1 / buckets) ≤ s ∧ s < ((i : ℚ) + 1) * (1 / buckets)))
    + if i = buckets - 1 then scores.countP (fun s => decide (s = 1)) else 0

/-- `get_anomaly_distribution`, given the fetched scores. -/
def get_anomaly_distribution (scores : List ℚ) (buckets : ℕ) :
    List AnomalyScoreDistribution :=
  if scores = [] then []
  else
    (List.range buckets).map (fun (i : ℕ) =>
      ⟨round4 ((i : ℚ) * (1 / buckets)),
        round4 (((i : ℚ) + 1) * (1 / buckets)),
        bucketCount scores buckets i⟩)

/-- The spec's membership rule: `v` falls in bucket `i` iff
`i·w ≤ v < (i+1)·w`, except that the last bucket also claims `v = 1`. -/
def specBucketMember (buckets i : ℕ) (v : ℚ) : Prop :=
  ((i : ℚ) * (1 / buckets) ≤ v ∧ v < ((i : ℚ) + 1) * (1 / buckets)) ∨
    (i = buckets - 1 ∧ v = 1)

instance (buckets i : ℕ) (v : ℚ) : Decidable (specBucketMember buckets i v) := by
  unfold specBucketMember; infer_instance

/-- The per-score membership indicator implicit in `bucketCount`. -/
def memberInd (buckets i : ℕ) (s : ℚ) : ℕ :=
  (if (i : ℚ) * (1 / buckets) ≤ s ∧ s < ((i : ℚ) + 1) * (1 / buckets)
    then 1 else 0) +
  (if i = buckets - 1 ∧ s = 1 then 1 else 0)

/-! ## Statistics aggregator (`app/routes/anomalies.py`,
`get_anomaly_stats`)

The route issues Hasura aggregate queries over the rows of the requested
model version: count, avg/stddev/min/max of `anomaly_score` (null on an
empty row set, as SQL aggregates are), counts with `percentile > 95` and
`> 99`, and the `run_id` of one arbitrary row.  Each nullable aggregate is
then defaulted in Python as `agg.get(..., d) or d`. -/

/-- Python `value or default` over an optional aggregate: `None` — and also
a value equal to `0`, which is falsy — yields the default. -/
def pyOr (x : Option ℚ) (d : ℚ) : ℚ :=
  match x with
  | none => d
  | some v => if v = 0 then d else v

/-- The `AnomalyScoreStats` response model, with the fields the route's
constructor call names (`model_version`, a display echo of the query
parameter, is omitted). -/
structure AnomalyScoreStats where
  total_scored : ℕ
  mean_score : ℚ
  std_score : ℚ
  min_score : ℚ
  max_score : ℚ
  above_95th_percentile : ℕ
  above_99th_percentile : ℕ
  run_id : Option String
deriving DecidableEq

/-- Hasura/SQL `avg` aggregate — null when there are no rows. -/
def aggAvg (l : List ℚ) : Option ℚ :=
  if l.isEmpty then none else some (l.sum / l.length)

/-- Hasura/SQL `min` aggregate — null when there are no rows. -/
def aggMin (l : List ℚ) : Option ℚ := l.min?

/-- Hasura/SQL `max` aggregate — null when there are no rows. -/
def aggMax (l : List ℚ) : Option ℚ := l.max?

/-- Hasura/SQL `stddev` aggregate — null when there are no rows.  On a
non-empty list the value is a square root (irrational in general), which no
claim inspects, so the non-empty case is a parameter `sd`. -/
def aggStddev (sd : List ℚ → ℚ) (l : List ℚ) : Option ℚ :=
  if l.isEmpty then none else some (sd l)

/-- `get_anomaly_stats`, given the store and the requested model version. -/
def get_anomaly_stats (sd : List ℚ → ℚ) (store : List ScoreRecord)
    (mv : String) : AnomalyScoreStats :=
  let recs := store.filter (fun r => r.model_version = mv)
  let scores := recs.map (fun r => r.anomaly_score)
  { total_scored := recs.length
    mean_score := pyOr (aggAvg scores) 0
    std_score := pyOr (aggStddev sd scores) 0
    min_score := pyOr (aggMin scores) 0
    max_score := pyOr (aggMax scores) 1
    above_95th_percentile := recs.countP (fun r => decide (r.percentile > 95))
    above_99th_percentile := recs.countP (fun r => decide (r.percentile > 99))
    run_id := recs.head?.bind (fun r => r.run_id) }

/-- A stored record under an unrelated model version. -/
def c7Other : ScoreRecord := ⟨2, "other-version", none, 1/4, none, none, 50, 0⟩

/-! ## Model version registry (`app/routes/anomalies.py`,
`get_model_versions`)

The route asks Hasura for the rows distinct on (model_version, run_id) and,
for each pair, issues a count query with
`model_version: _eq $model_version, run_id: _eq $run_id`.  Hasura drops a
comparison whose bound value is null, so a null run id places no constraint
on `run_id` in the count.  The descending ordering that Hasura applies is
display-only and not part of any claim, so the distinct pairs are enumerated
in first-appearance order; the route's `seen`-set dedup is subsumed. -/

/-- The count query for one (model_version, run_id) pair, with Hasura's
null-comparison semantics. -/
def countForPair (store : List ScoreRecord) (mv : String)
    (rid : Option String) : ℕ :=
  store.countP (fun r =>
    decide (r.model_version = mv) &&
      (match rid with
       | none => true
       | some s => decide (r.run_id = some s)))

/-- The `ModelVersionInfo` response model, with the fields the route's
constructor call names (`created_at`, display-only, omitted). -/
structure ModelVersionInfo where
  model_version : String
  run_id : Option String
  tower_count : ℕ
deriving DecidableEq

/-- The distinct (model_version, run_id) pairs of the store. -/
def distinctPairs (store : List ScoreRecord) : List (String × Option String) :=
  (store.map (fun r => (r.model_version, r.run_id))).dedup

/-- `get_model_versions`: one entry per distinct pair, each carrying the
count the route's per-pair query returns. -/
def get_model_versions (store : List ScoreRecord) : List ModelVersionInfo :=
  (distinctPairs store).map (fun p => ⟨p.1, p.2, countForPair store p.1 p.2⟩)

/-- A store with a null-run_id record and a named-run record under the same
model version. -/
def c8Store : List ScoreRecord :=
  [⟨1, "v1", none, 1/2, none, none, 50, 0⟩,
   ⟨2, "v1", some "r1", 3/4, none, none, 100, 0⟩]

/-! ## Re-import idempotence (C9) -/

/-- A record with its `created_at` cleared, for comparing stored rows up to
the insertion timestamp. -/
def eraseTime (r : ScoreRecord) : ScoreRecord :=
  ⟨r.tower_id, r.model_version, r.run_id, r.anomaly_score,
    r.link_pred_error, r.neighbor_inconsistency, r.percentile, 0⟩

/-! ## Theorems -/

/-- C1: the stated invariant fails on the code. At an input where tower 1
has one EN-DC-true and one EN-DC-false association row with provider 2, the
provider-2 entry returned by band_distribution has `endc_towers = 1` and
`non_endc_towers = 1` but `total_towers = 1`: the first equation
(`total_towers = Σ tower_count`) holds, but
`endc_towers + non_endc_towers = total_towers` does not. -/
theorem c1_band_distribution_invariant_fails_on_code :
    ∃ e ∈ by_provider c1Rows,
      (e.distribution.map (fun d => d.tower_count)).sum = e.total_towers ∧
        e.endc_towers + e.non_endc_towers ≠ e.total_towers := by
  decide

/-- C2: at the spec's scenario (tower 5, provider 7, one EN-DC-false row and
one EN-DC-true row), the code counts tower 5 once in `endc_towers` but also
once in `non_endc_towers` — it is not removed from the non-EN-DC set, so the
tower is not classified EN-DC-enabled exclusively as the claim requires. -/
theorem c2_mixed_endc_tower_counted_in_both_sets :
    (providerEntry c2Rows 7).endc_towers = 1 ∧
    (providerEntry c2Rows 7).non_endc_towers = 1 ∧
    (providerEntry c2Rows 7).total_towers = 1 := by
  decide

/-- C3: the importer does not reject an empty batch.  Starting from a store
holding one "v1" record and importing an empty batch for "v1", the code
raises no error (its embedding is a total function with no failure path for
an empty batch) and the store mutation does happen: the prior "v1" record is
deleted and nothing is inserted, leaving an empty store — the claimed
`EmptyBatchError`-before-any-mutation behaviour does not exist in the code. -/
theorem c3_empty_batch_not_rejected_and_store_mutated :
    import_scores [c3Prior] [] "v1" (some "r1") 5 = [] := by
  decide

theorem countEq_cons (a : ℚ) (t : List ℚ) (x : ℚ) :
    countEq (a :: t) x = countEq t x + if a = x then 1 else 0 := by
  by_cases h : a = x <;> simp [countEq, List.countP_cons, h]

theorem countLt_cons (a : ℚ) (t : List ℚ) (x : ℚ) :
    countLt (a :: t) x = countLt t x + if a < x then 1 else 0 := by
  by_cases h : a < x <;> simp [countLt, List.countP_cons, h]

theorem length_positionsOf (s : List ℚ) (x : ℚ) :
    (positionsOf s x).length = countEq s x := by
  induction s with
  | nil => rfl
  | cons a t ih =>
      rw [countEq_cons]
      by_cases h : a = x <;> simp [positionsOf, h, ih]

theorem sum_map_succ (l : List ℕ) : (l.map (· + 1)).sum = l.sum + l.length := by
  induction l with
  | nil => rfl
  | cons a t ih => simp [ih]; omega

theorem sumPos_cons (a : ℚ) (t : List ℚ) (x : ℚ) :
    sumPos (a :: t) x =
      (if a = x then 1 else 0) + (sumPos t x + countEq t x) := by
  by_cases h : a = x <;>
    simp [sumPos, positionsOf, h, sum_map_succ, length_positionsOf]

/-- In a sorted list, the positions of `x` are the consecutive ranks
following the values below `x`; their sum therefore satisfies the closed
form `2·Σ = countEq · (2·countLt + countEq + 1)`. -/
theorem sorted_sumPos (s : List ℚ) (hs : s.Sorted (· ≤ ·)) (x : ℚ) :
    2 * sumPos s x = countEq s x * (2 * countLt s x + countEq s x + 1) := by
  induction s with
  | nil => rfl
  | cons a t ih =>
      have ha : ∀ b ∈ t, a ≤ b := (List.sorted_cons.mp hs).1
      have IH := ih (List.sorted_cons.mp hs).2
      rw [sumPos_cons, countEq_cons, countLt_cons]
      by_cases hax : a = x
      · subst hax
        have h0 : countLt t a = 0 := by
          rw [countLt, List.countP_eq_zero]
          intro b hb
          simpa using not_lt.mpr (ha b hb)
        rw [h0] at IH ⊢
        zify at IH ⊢
        simp only [lt_irrefl, if_false, if_true, eq_self_iff_true]
        linear_combination IH
      · by_cases halt : a < x
        · simp only [if_neg hax, if_pos halt]
          zify at IH ⊢
          linear_combination IH
        · have hxa : x < a := lt_of_le_of_ne (not_lt.mp halt) fun h => hax h.symm
          have hceq : countEq t x = 0 := by
            rw [countEq, List.countP_eq_zero]
            intro b hb
            have : x < b := lt_of_lt_of_le hxa (ha b hb)
            simpa using ne_of_gt this
          have hsp : sumPos t x = 0 := by
            have := length_positionsOf t x
            rw [hceq, List.length_eq_zero] at this
            simp [sumPos, this]
          simp [hax, halt, hceq, hsp]

theorem avgRank_eq_posMean (l : List ℚ) (x : ℚ) (hx : x ∈ l) :
    avgRank l x =
      ((positionsOf (l.insertionSort (· ≤ ·)) x).map
          (Nat.cast : ℕ → ℚ)).sum /
        ((positionsOf (l.insertionSort (· ≤ ·)) x).length : ℚ) := by
  have hperm : (l.insertionSort (· ≤ ·)).Perm l := l.perm_insertionSort (· ≤ ·)
  have hEq : countEq (l.insertionSort (· ≤ ·)) x = countEq l x :=
    hperm.countP_eq _
  have hLt : countLt (l.insertionSort (· ≤ ·)) x = countLt l x :=
    hperm.countP_eq _
  have hkey := sorted_sumPos _ (l.sorted_insertionSort (· ≤ ·)) x
  rw [hEq, hLt] at hkey
  have hc : 0 < countEq l x := by
    rw [countEq, List.countP_pos_iff]
    exact ⟨x, hx, by simp⟩
  have hcQ : (countEq l x : ℚ) ≠ 0 := by positivity
  have hsum : ((positionsOf (l.insertionSort (· ≤ ·)) x).map
      (Nat.cast : ℕ → ℚ)).sum =
      (sumPos (l.insertionSort (· ≤ ·)) x : ℚ) :=
    (Nat.cast_list_sum _).symm
  rw [hsum, length_positionsOf, hEq]
  have hkeyQ : (2 : ℚ) * (sumPos (l.insertionSort (· ≤ ·)) x : ℚ) =
      (countEq l x : ℚ) *
        (2 * (countLt l x : ℚ) + (countEq l x : ℚ) + 1) := by
    exact_mod_cast congrArg (fun n : ℕ => (n : ℚ)) hkey
  rw [avgRank, eq_comm, div_eq_iff hcQ]
  linear_combination hkeyQ / 2

/-- C4: for every non-empty batch, the percentile the importer computes for
each value equals the spec formula — the mean of the value's tied 1-based
rank positions in a sorted arrangement, divided by N, times 100 — and a
batch of a single value receives percentile 100. -/
theorem c4_percentile_is_average_rank (l : List ℚ) (hl : l ≠ []) :
    percentiles l = l.map (specPercentile l) ∧
      ∀ x : ℚ, percentiles [x] = [100] := by
  constructor
  · rw [percentiles, rankdata_average, List.map_map]
    apply List.map_congr_left
    intro x hx
    show avgRank l x / (l.length : ℚ) * 100 = specPercentile l x
    rw [avgRank_eq_posMean l x hx, specPercentile]
  · intro x
    have h1 : countLt [x] x = 0 := by simp [countLt, List.countP_cons]
    have h2 : countEq [x] x = 1 := by simp [countEq, List.countP_cons]
    simp [percentiles, rankdata_average, avgRank, h1, h2]

theorem c4_witness :
    percentiles [(1 : ℚ)/10, 1/2, 9/10] =
      [(1 : ℚ)/10, 1/2, 9/10].map (specPercentile [(1 : ℚ)/10, 1/2, 9/10]) :=
  (c4_percentile_is_average_rank [(1 : ℚ)/10, 1/2, 9/10] (by decide)).1

theorem countLe_split (l : List ℚ) (x : ℚ) :
    l.countP (fun z => decide (z ≤ x)) = countLt l x + countEq l x := by
  induction l with
  | nil => rfl
  | cons a t ih =>
      rw [List.countP_cons, countLt_cons, countEq_cons, ih]
      rcases lt_trichotomy a x with h | h | h
      · simp [h, le_of_lt h, ne_of_lt h]; omega
      · subst h; simp; omega
      · simp [not_le.mpr h, not_lt.mpr (le_of_lt h), ne_of_gt h]

/-- C5: the percentile an entry receives is a function of its score value
within the batch multiset: (i) the percentile column is the pointwise map
`x ↦ avgRank l x / N * 100` over the scores, (ii) permuting the batch leaves
that score-to-percentile function unchanged, (iii) equal scores receive
identical percentiles, and (iv) over a batch with no ties the percentile is
strictly increasing in the score value. -/
theorem c5_percentile_determined_by_score (l : List ℚ) (hl : l ≠ []) :
    (percentiles l =
        l.map (fun x => avgRank l x / (l.length : ℚ) * 100)) ∧
    (∀ l₂ : List ℚ, l.Perm l₂ → ∀ x : ℚ,
        avgRank l x / (l.length : ℚ) * 100 =
          avgRank l₂ x / (l₂.length : ℚ) * 100) ∧
    (∀ x y : ℚ, x ∈ l → y ∈ l → x = y →
        avgRank l x / (l.length : ℚ) * 100 =
          avgRank l y / (l.length : ℚ) * 100) ∧
    (l.Nodup → ∀ x y : ℚ, x ∈ l → y ∈ l → x < y →
        avgRank l x / (l.length : ℚ) * 100 <
          avgRank l y / (l.length : ℚ) * 100) := by
  refine ⟨?_, ?_, ?_, ?_⟩
  · rw [percentiles, rankdata_average, List.map_map]
    rfl
  · intro l₂ hp x
    simp only [avgRank, countLt, countEq, hp.countP_eq, hp.length_eq]
  · intro x y _ _ hxy
    rw [hxy]
  · intro _ x y hx hy hxy
    have hN : (0 : ℚ) < l.length := by
      have : 0 < l.length := List.length_pos.mpr hl
      exact_mod_cast this
    have hle : l.countP (fun z => decide (z ≤ x)) ≤ countLt l y := by
      apply List.countP_mono_left
      intro z _ hz
      simp only [decide_eq_true_eq] at hz ⊢
      exact lt_of_le_of_lt hz hxy
    rw [countLe_split] at hle
    have hx1 : 0 < countEq l x := by
      rw [countEq, List.countP_pos_iff]
      exact ⟨x, hx, by simp⟩
    have hy1 : 0 < countEq l y := by
      rw [countEq, List.countP_pos_iff]
      exact ⟨y, hy, by simp⟩
    have key : avgRank l x < avgRank l y := by
      rw [avgRank, avgRank]
      have c1 : (countLt l x : ℚ) + (countEq l x : ℚ) ≤ (countLt l y : ℚ) := by
        exact_mod_cast hle
      have c2 : (1 : ℚ) ≤ (countEq l x : ℚ) := by exact_mod_cast hx1
      have c3 : (1 : ℚ) ≤ (countEq l y : ℚ) := by exact_mod_cast hy1
      linarith
    have e1 : avgRank l x / (l.length : ℚ) * 100 =
        avgRank l x * (100 / (l.length : ℚ)) := by ring
    have e2 : avgRank l y / (l.length : ℚ) * 100 =
        avgRank l y * (100 / (l.length : ℚ)) := by ring
    rw [e1, e2]
    exact mul_lt_mul_of_pos_right key (by positivity)

theorem c5_witness :
    percentiles [(3 : ℚ)/10, 1/10] =
      [(3 : ℚ)/10, 1/10].map
        (fun x => avgRank [(3 : ℚ)/10, 1/10] x /
          (([(3 : ℚ)/10, 1/10] : List ℚ).length : ℚ) * 100) :=
  (c5_percentile_determined_by_score [(3 : ℚ)/10, 1/10] (by decide)).1

theorem bucketCount_nil (b i : ℕ) : bucketCount [] b i = 0 := by
  simp [bucketCount]

theorem bucketCount_cons (a : ℚ) (t : List ℚ) (b i : ℕ) :
    bucketCount (a :: t) b i = bucketCount t b i + memberInd b i a := by
  unfold bucketCount memberInd
  rw [List.countP_cons]
  by_cases h : i = b - 1
  · rw [if_pos h, if_pos h, List.countP_cons]
    by_cases h1 : (i : ℚ) * (1 / b) ≤ a ∧ a < ((i : ℚ) + 1) * (1 / b) <;>
      by_cases h2 : a = 1 <;> simp [h, h1, h2] <;> omega
  · rw [if_neg h, if_neg h]
    by_cases h1 : (i : ℚ) * (1 / b) ≤ a ∧ a < ((i : ℚ) + 1) * (1 / b) <;>
      simp [h, h1] <;> omega

theorem memberInd_of_one (b j : ℕ) (hb : 1 ≤ b) (hj : j < b) :
    memberInd b j 1 = if j = b - 1 then 1 else 0 := by
  have hb0 : (0 : ℚ) < b := by exact_mod_cast hb
  have hfirst : ¬((j : ℚ) * (1 / b) ≤ 1 ∧ (1 : ℚ) < ((j : ℚ) + 1) * (1 / b)) := by
    rintro ⟨-, hc⟩
    rw [mul_one_div, lt_div_iff hb0] at hc
    have hjb : (j : ℚ) + 1 ≤ b := by exact_mod_cast Nat.succ_le_of_lt hj
    linarith
  unfold memberInd
  rw [if_neg hfirst, zero_add]
  by_cases h : j = b - 1 <;> simp [h]

theorem memberInd_of_lt_one (b j : ℕ) (hb : 1 ≤ b) (s : ℚ)
    (h0 : 0 ≤ s) (h1 : s < 1) :
    memberInd b j s = if j = ⌊s * b⌋₊ then 1 else 0 := by
  have hb0 : (0 : ℚ) < b := by exact_mod_cast hb
  have hsb : 0 ≤ s * b := by positivity
  have hiff : ((j : ℚ) * (1 / b) ≤ s ∧ s < ((j : ℚ) + 1) * (1 / b)) ↔
      j = ⌊s * b⌋₊ := by
    rw [mul_one_div, mul_one_div, div_le_iff hb0, lt_div_iff hb0, eq_comm,
      Nat.floor_eq_iff hsb]
  unfold memberInd
  rw [if_neg (show ¬(j = b - 1 ∧ s = 1) from fun h => (ne_of_lt h1) h.2),
    add_zero, if_congr hiff rfl rfl]

theorem memberInd_out_of_range (b i : ℕ) (hb : 1 ≤ b) (hi : i < b) (s : ℚ)
    (hs : s < 0 ∨ 1 < s) : memberInd b i s = 0 := by
  have hb0 : (0 : ℚ) < b := by exact_mod_cast hb
  have hs1 : s ≠ 1 := by rcases hs with h | h <;> [exact ne_of_lt (by linarith); exact ne_of_gt h]
  unfold memberInd
  rw [if_neg (show ¬(i = b - 1 ∧ s = 1) from fun h => hs1 h.2), add_zero,
    if_neg]
  rintro ⟨ha, hc⟩
  rcases hs with h | h
  · have : (0 : ℚ) ≤ (i : ℚ) * (1 / b) := by positivity
    linarith
  · rw [mul_one_div, lt_div_iff hb0] at hc
    have hib : (i : ℚ) + 1 ≤ b := by exact_mod_cast Nat.succ_le_of_lt hi
    nlinarith

/-- Every score in `[0,1]` is claimed by exactly one bucket. -/
theorem sum_memberInd (b : ℕ) (hb : 1 ≤ b) (s : ℚ)
    (h0 : 0 ≤ s) (h1 : s ≤ 1) :
    ∑ i ∈ Finset.range b, memberInd b i s = 1 := by
  rcases eq_or_lt_of_le h1 with rfl | hlt
  · rw [Finset.sum_congr rfl
      (fun i hi => memberInd_of_one b i hb (Finset.mem_range.mp hi))]
    rw [Finset.sum_ite_eq' (Finset.range b) (b - 1) (fun _ => 1)]
    have : b - 1 ∈ Finset.range b := Finset.mem_range.mpr (by omega)
    simp [this]
  · rw [Finset.sum_congr rfl
      (fun i _ => memberInd_of_lt_one b i hb s h0 hlt)]
    rw [Finset.sum_ite_eq' (Finset.range b) (⌊s * b⌋₊) (fun _ => 1)]
    have hb0 : (0 : ℚ) < b := by exact_mod_cast hb
    have hmem : ⌊s * b⌋₊ ∈ Finset.range b := by
      rw [Finset.mem_range, Nat.floor_lt (by positivity)]
      nlinarith
    simp [hmem]

theorem sum_map_add_nat (l : List ℕ) (f g : ℕ → ℕ) :
    (l.map (fun x => f x + g x)).sum = (l.map f).sum + (l.map g).sum := by
  induction l with
  | nil => rfl
  | cons a t ih => simp [ih]; omega

/-- The total of the bucket counts is the sum, over the scores, of the
number of buckets claiming each score. -/
theorem sum_bucketCount_eq (scores : List ℚ) (b : ℕ) :
    ((List.range b).map (fun i => bucketCount scores b i)).sum =
      (scores.map (fun s =>
        ((List.range b).map (fun i => memberInd b i s)).sum)).sum := by
  induction scores with
  | nil => simp [bucketCount_nil]
  | cons a t ih =>
      have hcons : ∀ i : ℕ, bucketCount (a :: t) b i =
          bucketCount t b i + memberInd b i a := fun i => bucketCount_cons a t b i
      calc ((List.range b).map (fun i => bucketCount (a :: t) b i)).sum
          = ((List.range b).map
              (fun i => bucketCount t b i + memberInd b i a)).sum := by
            exact congrArg List.sum (List.map_congr_left (fun i _ => hcons i))
        _ = ((List.range b).map (fun i => bucketCount t b i)).sum +
              ((List.range b).map (fun i => memberInd b i a)).sum :=
            sum_map_add_nat _ _ _
        _ = _ := by rw [ih]; simp [Nat.add_comm]

theorem countP_add_countP_disjoint (l : List ℚ) (p q : ℚ → Prop)
    [DecidablePred p] [DecidablePred q]
    (h : ∀ a ∈ l, ¬(p a ∧ q a)) :
    l.countP (fun a => decide (p a)) + l.countP (fun a => decide (q a)) =
      l.countP (fun a => decide (p a ∨ q a)) := by
  induction l with
  | nil => rfl
  | cons a t ih =>
      have hd := h a (List.mem_cons_self a t)
      have ih2 := ih (fun s hs => h s (List.mem_cons_of_mem a hs))
      rw [List.countP_cons, List.countP_cons, List.countP_cons, ← ih2]
      by_cases hp : p a
      · by_cases hq : q a
        · exact absurd ⟨hp, hq⟩ hd
        · simp [hp, hq]; omega
      · by_cases hq : q a <;> simp [hp, hq] <;> omega

theorem count_or_split (l : List ℚ) (b i : ℕ) (hlast : i = b - 1)
    (hdisj : ∀ s : ℚ, s ∈ l →
      ¬(((i : ℚ) * (1 / b) ≤ s ∧ s < ((i : ℚ) + 1) * (1 / b)) ∧ s = 1)) :
    bucketCount l b i = l.countP (fun s => decide (specBucketMember b i s)) := by
  unfold bucketCount
  rw [if_pos hlast, countP_add_countP_disjoint l _ _ hdisj]
  apply List.countP_congr
  intro s _
  simp only [decide_eq_true_eq, specBucketMember, hlast]
  tauto

/-- C6: for scores all in `[0,1]` and any bucket count in `[5,100]`:
(i) each bucket's count is exactly the count of scores satisfying the spec's
membership rule (`i·w ≤ v < (i+1)·w`, the last bucket also claiming
`v = 1`); (ii) the bucket counts sum to the number of scores; and (iii) the
spec's example — two buckets over `[0.2, 0.7, 1.0]` — yields boundaries
`(0, 0.5), (0.5, 1.0)` with counts `1, 2`. -/
theorem c6_histogram_partition (scores : List ℚ) (buckets : ℕ)
    (h5 : 5 ≤ buckets) (h100 : buckets ≤ 100)
    (hrange : ∀ s ∈ scores, 0 ≤ s ∧ s ≤ 1) :
    (∀ i < buckets, bucketCount scores buckets i =
        scores.countP (fun s => decide (specBucketMember buckets i s))) ∧
    ((get_anomaly_distribution scores buckets).map (fun d => d.count)).sum =
        scores.length ∧
    get_anomaly_distribution [(2 : ℚ)/10, 7/10, 1] 2 =
      [⟨0, 1/2, 1⟩, ⟨1/2, 1, 2⟩] := by
  have hb : 1 ≤ buckets := by omega
  have hb0 : (0 : ℚ) < buckets := by exact_mod_cast hb
  refine ⟨?_, ?_, ?_⟩
  case refine_3 =>
    norm_num [get_anomaly_distribution, round4, bucketCount, round_eq,
      List.range_succ, List.countP_cons, List.countP_nil]
    intro h
    exact absurd h (by simp)
  · intro i hi
    by_cases hlast : i = buckets - 1
    · apply count_or_split scores buckets i hlast
      intro s hs ⟨hr, hs1⟩
      subst hs1
      simp only [mul_one_div] at hr
      rw [lt_div_iff hb0] at hr
      have : (i : ℚ) + 1 ≤ buckets := by exact_mod_cast Nat.succ_le_of_lt hi
      have h2 := hr.2
      linarith
    · unfold bucketCount
      rw [if_neg hlast, add_zero]
      apply List.countP_congr
      intro s _
      simp only [decide_eq_true_eq, specBucketMember]
      constructor
      · intro h; exact Or.inl h
      · rintro (h | ⟨h, -⟩)
        · exact h
        · exact absurd h hlast
  · have hsum := sum_bucketCount_eq scores buckets
    by_cases hnil : scores = []
    · subst hnil; simp [get_anomaly_distribution]
    · rw [get_anomaly_distribution, if_neg hnil, List.map_map]
      have : ((List.range buckets).map
          (fun i => bucketCount scores buckets i)).sum = scores.length := by
        rw [hsum]
        have hone : ∀ s ∈ scores,
            ((List.range buckets).map (fun i => memberInd buckets i s)).sum
              = 1 := by
          intro s hs
          have := sum_memberInd buckets hb s (hrange s hs).1 (hrange s hs).2
          exact this
        rw [List.map_congr_left hone]
        simp
      rw [← this]
      rfl

theorem c6_witness :
    ((get_anomaly_distribution [(2 : ℚ)/10, 7/10, 1] 20).map
        (fun d => d.count)).sum = 3 :=
  (c6_histogram_partition [(2 : ℚ)/10, 7/10, 1] 20 (by decide) (by decide)
    (by intro s hs; simp at hs; rcases hs with rfl | rfl | rfl <;>
      constructor <;> norm_num)).2.1

theorem sum_map_le_length (u : List ℚ) (g : ℚ → ℕ) :
    (∀ s ∈ u, g s ≤ 1) → (u.map g).sum ≤ u.length := by
  induction u with
  | nil => intro _; simp
  | cons a t ih =>
      intro hle
      have h1 := hle a (List.mem_cons_self a t)
      have h2 := ih (fun s hs => hle s (List.mem_cons_of_mem a hs))
      simp only [List.map_cons, List.sum_cons, List.length_cons]
      omega

theorem sum_map_lt_length (u : List ℚ) (g : ℚ → ℕ) :
    (∀ s ∈ u, g s ≤ 1) → (∃ s ∈ u, g s = 0) →
      (u.map g).sum < u.length := by
  induction u with
  | nil => rintro - ⟨s, hs, -⟩; exact absurd hs (by simp)
  | cons a t ih =>
      rintro hle ⟨s, hs, hgs⟩
      have h1 := hle a (List.mem_cons_self a t)
      have ht := fun s hs => hle s (List.mem_cons_of_mem a hs)
      simp only [List.map_cons, List.sum_cons, List.length_cons]
      rcases List.mem_cons.mp hs with rfl | hst
      · have h2 := sum_map_le_length t g ht
        omega
      · have h2 := ih ht ⟨s, hst, hgs⟩
        omega

/-- C10: with any bucket count in `[5,100]`: (i) a score below 0 or above 1
is counted by no bucket — as a singleton store it produces count 0 in every
bucket; (ii) if some stored score is out of range, the bucket counts sum to
strictly less than the number of stored scores. -/
theorem c10_out_of_range_scores_uncounted (scores : List ℚ) (buckets : ℕ)
    (h5 : 5 ≤ buckets) (h100 : buckets ≤ 100) :
    (∀ v : ℚ, (v < 0 ∨ 1 < v) → ∀ i < buckets,
        bucketCount [v] buckets i = 0) ∧
    ((∃ v ∈ scores, v < 0 ∨ 1 < v) →
        ((get_anomaly_distribution scores buckets).map
          (fun d => d.count)).sum < scores.length) := by
  have hb : 1 ≤ buckets := by omega
  constructor
  · intro v hv i hi
    rw [show ([v] : List ℚ) = v :: [] from rfl, bucketCount_cons,
      bucketCount_nil, memberInd_out_of_range buckets i hb hi v hv]
  · rintro ⟨v, hv, hvout⟩
    have hnil : scores ≠ [] := fun h => by subst h; exact absurd hv (by simp)
    rw [get_anomaly_distribution, if_neg hnil, List.map_map]
    show ((List.range buckets).map
        (fun i => bucketCount scores buckets i)).sum < scores.length
    rw [sum_bucketCount_eq]
    have hle : ∀ s ∈ scores,
        ((List.range buckets).map (fun i => memberInd buckets i s)).sum ≤ 1 := by
      intro s hs
      by_cases hin : 0 ≤ s ∧ s ≤ 1
      · exact le_of_eq (sum_memberInd buckets hb s hin.1 hin.2)
      · have hout : s < 0 ∨ 1 < s := by
          rcases not_and_or.mp hin with h | h
          · exact Or.inl (not_le.mp h)
          · exact Or.inr (not_le.mp h)
        have : ∀ i ∈ List.range buckets, memberInd buckets i s = 0 :=
          fun i hi =>
            memberInd_out_of_range buckets i hb (List.mem_range.mp hi) s hout
        rw [List.map_congr_left this]
        simp
    have hzero :
        ((List.range buckets).map (fun i => memberInd buckets i v)).sum = 0 := by
      have : ∀ i ∈ List.range buckets, memberInd buckets i v = 0 :=
        fun i hi =>
          memberInd_out_of_range buckets i hb (List.mem_range.mp hi) v hvout
      rw [List.map_congr_left this]
      simp
    exact sum_map_lt_length scores _ hle ⟨v, hv, hzero⟩

theorem c10_witness :
    ((-1 : ℚ) < 0 ∨ 1 < (-1 : ℚ)) ∧
      bucketCount [(-1 : ℚ)] 5 0 = 0 ∧
      ((get_anomaly_distribution [(3 : ℚ)/2] 5).map
        (fun d => d.count)).sum < 1 := by
  have h := c10_out_of_range_scores_uncounted [(3 : ℚ)/2] 5
    (by decide) (by decide)
  refine ⟨Or.inl (by norm_num), ?_, ?_⟩
  · have h2 := c10_out_of_range_scores_uncounted [(-1 : ℚ)] 5
      (by decide) (by decide)
    exact h2.1 (-1) (Or.inl (by norm_num)) 0 (by decide)
  · exact h.2 ⟨3/2, by simp, Or.inr (by norm_num)⟩

/-- C7: for a model version with no stored records, get_stats returns
total 0, mean 0, std 0, min 0, the sentinel max 1, zero threshold counts and
no run id — never null/NaN. -/
theorem c7_stats_empty_defaults (sd : List ℚ → ℚ) (store : List ScoreRecord)
    (mv : String) (h : ∀ r ∈ store, r.model_version ≠ mv) :
    get_anomaly_stats sd store mv = ⟨0, 0, 0, 0, 1, 0, 0, none⟩ := by
  have hrecs : store.filter (fun r => r.model_version = mv) = [] := by
    rw [List.filter_eq_nil_iff]
    intro r hr
    simpa using h r hr
  unfold get_anomaly_stats
  rw [hrecs]
  rfl

theorem c7_witness :
    (∀ r ∈ ([c7Other] : List ScoreRecord),
        r.model_version ≠ "gnn-link-pred-v1") ∧
      get_anomaly_stats (fun _ => 0) [c7Other] "gnn-link-pred-v1" =
        ⟨0, 0, 0, 0, 1, 0, 0, none⟩ :=
  ⟨by decide, c7_stats_empty_defaults (fun _ => 0) [c7Other]
    "gnn-link-pred-v1" (by decide)⟩

/-- C8: the claim fails on the code.  With one null-run_id record and one
"r1" record under "v1", the entry for the ("v1", null) pair reports
tower_count 2 — the null run id places no constraint, so the count covers
records with any run id — while exactly 1 stored record actually has a null
run id. -/
theorem c8_null_run_id_pair_counts_all_runs :
    get_model_versions c8Store =
      [⟨"v1", none, 2⟩, ⟨"v1", some "r1", 1⟩] ∧
    c8Store.countP
      (fun r => decide (r.model_version = "v1" ∧ r.run_id = none)) = 1 := by
  constructor
  · rfl
  · rfl

theorem importRows_version (batch : List ScoreRow) (mv : String)
    (rid : Option String) (t : ℕ) :
    ∀ r ∈ importRows batch mv rid t, r.model_version = mv := by
  intro r hr
  rcases List.mem_map.mp hr with ⟨rp, -, rfl⟩
  rfl

theorem filter_map_comm (l : List ScoreRecord)
    (f : ScoreRecord → ScoreRecord) (p : ScoreRecord → Bool)
    (hp : ∀ x, p (f x) = p x) :
    (l.map f).filter p = (l.filter p).map f := by
  induction l with
  | nil => rfl
  | cons a t ih =>
      simp only [List.map_cons, List.filter_cons, hp a]
      cases hpa : p a <;> simp [hpa, ih]

theorem filter_upsertOne (l : List ScoreRecord) (r : ScoreRecord)
    (mv : String) (hr : r.model_version = mv) :
    (upsertOne l r).filter (fun x => x.model_version = mv) =
      upsertOne (l.filter (fun x => x.model_version = mv)) r := by
  unfold upsertOne
  by_cases h : ∃ x ∈ l, sameKey x r
  · have h2 : ∃ x ∈ l.filter (fun x => x.model_version = mv), sameKey x r := by
      rcases h with ⟨x, hx, hk⟩
      refine ⟨x, List.mem_filter.mpr ⟨hx, ?_⟩, hk⟩
      simp [hk.2, hr]
    rw [if_pos h, if_pos h2]
    apply filter_map_comm
    intro x
    by_cases hk : sameKey x r
    · simp only [if_pos hk]
      have : x.model_version = mv := by rw [hk.2, hr]
      simp [hr, this]
    · simp [if_neg hk]
  · have h2 : ¬ ∃ x ∈ l.filter (fun x => x.model_version = mv), sameKey x r :=
      fun ⟨x, hx, hk⟩ => h ⟨x, (List.mem_filter.mp hx).1, hk⟩
    rw [if_neg h, if_neg h2, List.filter_append]
    simp [hr]

theorem filter_upsertAll (l : List ScoreRecord) (data : List ScoreRecord)
    (mv : String) (hd : ∀ r ∈ data, r.model_version = mv) :
    (upsertAll l data).filter (fun x => x.model_version = mv) =
      upsertAll (l.filter (fun x => x.model_version = mv)) data := by
  induction data generalizing l with
  | nil => rfl
  | cons d ds ih =>
      show (upsertAll (upsertOne l d) ds).filter _ = _
      rw [ih (upsertOne l d) (fun r hr => hd r (List.mem_cons_of_mem d hr)),
        filter_upsertOne l d mv (hd d (List.mem_cons_self d ds))]
      rfl

theorem eraseTime_upsertOne (l : List ScoreRecord) (r : ScoreRecord) :
    (upsertOne l r).map eraseTime =
      upsertOne (l.map eraseTime) (eraseTime r) := by
  unfold upsertOne
  by_cases h : ∃ x ∈ l, sameKey x r
  · have h2 : ∃ y ∈ l.map eraseTime, sameKey y (eraseTime r) := by
      rcases h with ⟨x, hx, hk⟩
      exact ⟨eraseTime x, List.mem_map_of_mem eraseTime hx, hk⟩
    rw [if_pos h, if_pos h2, List.map_map, List.map_map]
    apply List.map_congr_left
    intro x _
    by_cases hk : sameKey x r
    · have hk2 : sameKey (eraseTime x) (eraseTime r) := hk
      simp [Function.comp, if_pos hk, if_pos hk2]
    · have hk2 : ¬ sameKey (eraseTime x) (eraseTime r) := hk
      simp [Function.comp, if_neg hk, if_neg hk2]
  · have h2 : ¬ ∃ y ∈ l.map eraseTime, sameKey y (eraseTime r) := by
      rintro ⟨y, hy, hk⟩
      rcases List.mem_map.mp hy with ⟨x, hx, rfl⟩
      exact h ⟨x, hx, hk⟩
    rw [if_neg h, if_neg h2, List.map_append]
    rfl

theorem eraseTime_upsertAll (l : List ScoreRecord)
    (data : List ScoreRecord) :
    (upsertAll l data).map eraseTime =
      upsertAll (l.map eraseTime) (data.map eraseTime) := by
  induction data generalizing l with
  | nil => rfl
  | cons d ds ih =>
      show (upsertAll (upsertOne l d) ds).map eraseTime = _
      rw [ih (upsertOne l d), eraseTime_upsertOne]
      rfl

theorem eraseTime_importRows (batch : List ScoreRow) (mv : String)
    (rid : Option String) (t : ℕ) :
    (importRows batch mv rid t).map eraseTime = importRows batch mv rid 0 := by
  unfold importRows
  rw [List.map_map]
  apply List.map_congr_left
  intro rp _
  rfl

theorem filter_after_clean (store : List ScoreRecord) (mv : String) :
    (store.filter (fun r => r.model_version ≠ mv)).filter
      (fun r => r.model_version = mv) = [] := by
  rw [List.filter_eq_nil_iff]
  intro r hr
  have := (List.mem_filter.mp hr).2
  simp at this
  simp [this]

theorem import_scores_rows_for_version (store : List ScoreRecord)
    (batch : List ScoreRow) (mv : String) (rid : Option String) (t : ℕ) :
    ((import_scores store batch mv rid t).filter
        (fun r => r.model_version = mv)).map eraseTime =
      upsertAll [] (importRows batch mv rid 0) := by
  rw [import_scores,
    filter_upsertAll _ _ mv (importRows_version batch mv rid t),
    filter_after_clean, eraseTime_upsertAll, eraseTime_importRows]
  rfl

/-- C9: importing the same batch twice in succession for the same model
version leaves the stored rows of that version identical, field for field,
up to `created_at`: after either the first or the second import they equal
the deterministic upsert of the batch's rows (with recomputed percentiles),
timestamps cleared. -/
theorem c9_reimport_reproduces_rows (store : List ScoreRecord)
    (batch : List ScoreRow) (mv : String) (rid : Option String)
    (t1 t2 : ℕ) :
    ((import_scores (import_scores store batch mv rid t1) batch mv rid t2).filter
        (fun r => r.model_version = mv)).map eraseTime =
      ((import_scores store batch mv rid t1).filter
        (fun r => r.model_version = mv)).map eraseTime := by
  rw [import_scores_rows_for_version, import_scores_rows_for_version]

end AcdApi
